import Mathlib

/-!
Verification of the InverseMod repository: a non-standard iterative
multiplier/remainder scheme for computing modular inverses, in three
variants found in the source:

* `Fixed`     — `src/inverseModFixed.js` (corrected baseline, no backtracking)
* `Humanized` — `src/humanized/modularInverse.js` (depth-first search with
                bounded backtracking over multiplier offsets)
* `Gpt5`      — `src/gpt5-analysis/code/inverseModBacktrack.gpt5.js`
                (parity-aware backtracking variant)

All JavaScript numbers that occur in these code paths are non-negative
integers, so the embedding uses `Nat`.  Result strings are not modelled;
the structured information a string interpolates (the gcd value in a
"not coprime" message, the multiplier/remainder traces, the final `z`)
is carried in explicit fields instead.
-/

/-- Euclidean gcd loop shared by all three variant files
(`function gcd(a, b) { while (b !== 0) { ... } return a; }`).
The `while` loop is embedded with explicit fuel; `b + 1` rounds always
suffice because the second argument strictly decreases. -/
def gcdGo : Nat → Nat → Nat → Nat
  | 0, a, _ => a
  | fuel + 1, a, b => if b = 0 then a else gcdGo fuel b (a % b)

/-- The `gcd` function of the source files (each file defines the same loop). -/
def gcdJs (a b : Nat) : Nat := gcdGo (b + 1) a b

/-- Product of a list of multipliers, as the source computes it
(`z = 1; for (const valueK of k) z *= valueK;`). -/
def prodOf (l : List Nat) : Nat := l.foldl (· * ·) 1

/-- Which special case `checkSpecialCases` reported.  The source reports via a
message string; `notCoprime` carries the gcd value the message interpolates. -/
inductive SpecialCase where
  | zeroInput : SpecialCase
  | notCoprime : Nat → SpecialCase
deriving DecidableEq, Repr

namespace Fixed

/-- `checkSpecialCases` of `src/inverseModFixed.js`: rejects a zero input,
then rejects non-coprime pairs, reporting the gcd. -/
def checkSpecialCases (x y : Nat) : Option SpecialCase :=
  if x = 0 ∨ y = 0 then some SpecialCase.zeroInput
  else if gcdJs x y ≠ 1 then some (SpecialCase.notCoprime (gcdJs x y))
  else none

/-- The mid-sequence multiplier rule of the fixed variant
(`if (y % prevR === 0) k.push(y / prevR) else k.push(y / prevR + 1)`). -/
def fixedNextK (y prevR : Nat) : Nat :=
  if y % prevR = 0 then y / prevR else y / prevR + 1

/-- The `while (r[n-1] > 1 && n < maxIterations)` loop of
`inverseModFull` in `src/inverseModFixed.js` (`maxIterations = 100`).
`fuel` only makes the recursion structural; the loop's own `n < 100`
condition always stops it first when `100 ≤ n + fuel`. -/
def fixedLoop (y : Nat) : Nat → Nat → List Nat → List Nat → List Nat × List Nat
  | fuel, n, k, r =>
    if 1 < r.getD (n - 1) 0 ∧ n < 100 then
      match fuel with
      | 0 => (k, r)
      | fuel + 1 =>
        let prevR := r.getD (n - 1) 0
        let kn := fixedNextK y prevR
        let newR := prevR * kn % y
        let k2 := k ++ [kn]
        let r2 := r ++ [newR]
        if newR = 0 then (k2, r2)
        else if prevR ≤ newR then (k2, r2)
        else fixedLoop y fuel (n + 1) k2 r2
    else (k, r)

/-- Structured result of the fixed `inverseModFull`: the `k[]` and `r[]`
traces and the returned `z`, plus which special case (if any) was reported. -/
structure FixedResult where
  special : Option SpecialCase
  k : List Nat
  r : List Nat
  z : Nat
deriving DecidableEq, Repr

/-- `inverseModFull` of `src/inverseModFixed.js`: special-case checks,
normalization `currentX = x % y` with the multiple-of-modulus early exit,
initial multiplier `k1 = floor(y / currentX) + 1`, the bounded reduction
loop, and `z = (product of k) % y` only when the final remainder is 1. -/
def inverseModFull (x y : Nat) : FixedResult :=
  match checkSpecialCases x y with
  | some sc => ⟨some sc, [], [], 0⟩
  | none =>
    let currentX := x % y
    if currentX = 0 then ⟨none, [], [], 0⟩
    else
      let k1 := y / currentX + 1
      let r0 := currentX * k1 % y
      let kr := fixedLoop y 99 1 [k1] [r0]
      let z := if kr.2.getLast? = some 1 then prodOf kr.1 % y else 0
      ⟨none, kr.1, kr.2, z⟩

/-- `inverseMod` of `src/inverseModFixed.js`: returns only `z`. -/
def inverseMod (x y : Nat) : Nat := (inverseModFull x y).z

end Fixed

namespace Humanized

/-- `computeGreatestCommonDivisor` of `src/humanized/modularInverse.js`:
the same Euclidean loop (absolute values are identities on `Nat`). -/
def computeGreatestCommonDivisor (a b : Nat) : Nat := gcdGo (b + 1) a b

/-- `ceilDiv` of `src/humanized/modularInverse.js`:
`Math.floor((numerator + denominator - 1) / denominator)`. -/
def ceilDiv (numerator denominator : Nat) : Nat :=
  (numerator + denominator - 1) / denominator

/-- The `for (const offset of settings.multiplierOffsets)` loop inside `dfs`
of `findInverseWithBacktracking`: tries `ceilDiv(modulus, r) + offset`,
skipping non-positive multipliers, zero next remainders, and non-decreasing
next remainders (`progressRequired` is always `true`); recursion into a
child node is `child`, and the explored-node counter threads through. -/
def dfsLoop (m : Nat)
    (child : Nat → List Nat → List Nat → Nat → Option (List Nat × List Nat) × Nat) :
    List Nat → Nat → List Nat → List Nat → Nat → Option (List Nat × List Nat) × Nat
  | [], _, _, _, e => (none, e)
  | o :: os, r, ms, rs, e =>
    let k := ceilDiv m r + o
    if k = 0 then dfsLoop m child os r ms rs e
    else
      let nr := r * k % m
      if nr = 0 then dfsLoop m child os r ms rs e
      else if r ≤ nr then dfsLoop m child os r ms rs e
      else
        match child nr (ms ++ [k]) (rs ++ [nr]) e with
        | (some res, e2) => (some res, e2)
        | (none, e2) => dfsLoop m child os r ms rs e2

/-- The recursive `dfs` of `findInverseWithBacktracking`.  `fuel` is
`maxDepth - depth` (the code checks `depth >= settings.maxDepth`); `mN` is
`maxNodes`, `offs` the offsets list, `e` the explored-node counter.
Returns the search result together with the updated counter. -/
def dfs (m mN : Nat) (offs : List Nat) :
    Nat → Nat → List Nat → List Nat → Nat → Option (List Nat × List Nat) × Nat
  | fuel, r, ms, rs, e =>
    if mN ≤ e then (none, e)
    else if r = 1 then (some (ms, rs), e + 1)
    else
      match fuel with
      | 0 => (none, e + 1)
      | fuel + 1 =>
        dfsLoop m (fun nr ms2 rs2 e2 => dfs m mN offs fuel nr ms2 rs2 e2)
          offs r ms rs (e + 1)

/-- Result object of `findInverseWithBacktracking`. -/
structure HResult where
  found : Bool
  inverse : Nat
  multipliers : List Nat
  remainders : List Nat
  exploredNodes : Nat
deriving DecidableEq, Repr

/-- `findInverseWithBacktracking` of `src/humanized/modularInverse.js` with
the default settings (`maxDepth = 64`, `maxNodes = 2000`,
`multiplierOffsets = [0, 1, 2, 3]`).  On success the inverse is the fold
`(inverse * multiplier) % modulus` over the chosen multipliers. -/
def findInverseWithBacktracking (base modulus : Nat) : HResult :=
  let normalizedBase := base % modulus
  if normalizedBase = 0 then ⟨false, 0, [], [0], 0⟩
  else if normalizedBase = 1 then ⟨true, 1, [1], [1], 1⟩
  else
    match dfs modulus 2000 [0, 1, 2, 3] 64 normalizedBase [] [normalizedBase] 0 with
    | (some (ms, rs), e) =>
      ⟨true, ms.foldl (fun a k => a * k % modulus) 1, ms, rs, e⟩
    | (none, e) => ⟨false, 0, [], [normalizedBase], e⟩

/-- The `method` field of `computeModularInverse` (`'heuristic' | 'none'`). -/
inductive MethodTag where
  | heuristic : MethodTag
  | noMethod : MethodTag
deriving DecidableEq, Repr

/-- The `reason` string of `computeModularInverse`, as structured data:
`invalidInput` for the integer/positivity validation message, `notCoprime`
(carrying the gcd the message interpolates) for the gcd rejection,
`searchFailed` for heuristic exhaustion, `noReason` when absent. -/
inductive FailReason where
  | invalidInput : FailReason
  | notCoprime : Nat → FailReason
  | searchFailed : FailReason
  | noReason : FailReason
deriving DecidableEq, Repr

/-- Result object of `computeModularInverse`. -/
structure CMIResult where
  success : Bool
  inverse : Option Nat
  method : MethodTag
  details : Option (List Nat × List Nat × Nat)
  reason : FailReason
deriving DecidableEq, Repr

/-- `computeModularInverse` of `src/humanized/modularInverse.js`: validates
`modulus > 0` (non-integer inputs are not representable in `Nat`), rejects
non-coprime pairs with the gcd, and otherwise runs the heuristic with
backtracking only — there is no further fallback. -/
def computeModularInverse (base modulus : Nat) : CMIResult :=
  if modulus = 0 then
    ⟨false, none, MethodTag.noMethod, none, FailReason.invalidInput⟩
  else
    let g := computeGreatestCommonDivisor base modulus
    if g ≠ 1 then ⟨false, none, MethodTag.noMethod, none, FailReason.notCoprime g⟩
    else
      let h := findInverseWithBacktracking base modulus
      if h.found then
        ⟨true, some h.inverse, MethodTag.heuristic,
          some (h.multipliers, h.remainders, h.exploredNodes), FailReason.noReason⟩
      else ⟨false, none, MethodTag.noMethod, none, FailReason.searchFailed⟩

/-- `modularInverse` of `src/humanized/modularInverse.js`. -/
def modularInverse (base modulus : Nat) : Option Nat :=
  let result := computeModularInverse base modulus
  if result.success then result.inverse else none

end Humanized

namespace Gpt5

/-- `checkSpecialCases` of `src/gpt5-analysis/code/inverseModBacktrack.gpt5.js`
(identical to the fixed variant's). -/
def checkSpecialCases (x y : Nat) : Option SpecialCase :=
  if x = 0 ∨ y = 0 then some SpecialCase.zeroInput
  else if gcdJs x y ≠ 1 then some (SpecialCase.notCoprime (gcdJs x y))
  else none

/-- Bezout data returned by the recursive `extendedGcd`. -/
structure EGcd where
  x : Int
  y : Int
  gcd : Int
deriving DecidableEq, Repr

/-- `extendedGcd` of the gpt5 file.  The recursion on the second argument is
made structural with fuel; `b + 1` rounds always suffice. -/
def extendedGcdGo : Nat → Nat → Nat → EGcd
  | 0, a, _ => ⟨1, 0, (a : Int)⟩
  | fuel + 1, a, b =>
    if b = 0 then ⟨1, 0, (a : Int)⟩
    else
      let result := extendedGcdGo fuel b (a % b)
      ⟨result.y, result.x - (a / b : Nat) * result.y, result.gcd⟩

/-- `extendedGcd(a, b)` with enough fuel for its recursion. -/
def extendedGcd (a b : Nat) : EGcd := extendedGcdGo (b + 1) a b

/-- The extended-Euclid inverse the gpt5 file computes for its diagnostic
note (`let inv = eg.x % y; if (inv < 0) inv += y;`) when the heuristic has
failed on a coprime pair.  JavaScript `%` truncates toward zero, which is
`Int.tmod`.  Returns `none` when `eg.gcd !== 1`. -/
def egcdNoteInverse (x y : Nat) : Option Int :=
  let eg := extendedGcd x y
  if eg.gcd = 1 then
    let inv := Int.tmod eg.x (y : Int)
    some (if inv < 0 then inv + (y : Int) else inv)
  else none

/-- `normalizeKForBounds` of the gpt5 file: `while (k * rValue <= y) k++` —
the least `k' ≥ k` with `k' * rValue > y`, which is `k` itself when the
bound already holds and `y / rValue + 1` otherwise.  (For `rValue = 0` the
source loop would not terminate; it is never called with 0.) -/
def normalizeKForBounds (rValue y k : Nat) : Nat :=
  if rValue = 0 then k
  else if y < k * rValue then k else y / rValue + 1

/-- `computeNextK` of the gpt5 file: the fixed rule plus bounds
normalization. -/
def computeNextK (rValue y : Nat) : Nat :=
  normalizeKForBounds rValue y (y / rValue + 1)

/-- Output of `recalcRemaindersWithGivenK`: the normalized multiplier list
(the source normalizes `kList` in place), the recomputed remainders, and
the `failedAtZero` flag. -/
structure RecalcOut where
  k : List Nat
  r : List Nat
  failedAtZero : Bool
deriving DecidableEq, Repr

/-- The `for (let i = 0; i < kList.length; i++)` loop of
`recalcRemaindersWithGivenK`: normalizes each multiplier against the
running remainder, recomputes `newR = (prevR * k) % y`, and stops early
(leaving the remaining multipliers untouched) when a remainder hits 0. -/
def recalcGo (y : Nat) : Nat → List Nat → RecalcOut
  | _, [] => ⟨[], [], false⟩
  | prev, kv :: rest =>
    let k := normalizeKForBounds prev y kv
    let nr := prev * k % y
    if nr = 0 then ⟨k :: rest, [nr], true⟩
    else
      let out := recalcGo y nr rest
      ⟨k :: out.k, nr :: out.r, out.failedAtZero⟩

/-- `recalcRemaindersWithGivenK` of the gpt5 file: recomputes the remainder
sequence from `x % y` under a given multiplier list. -/
def recalcRemaindersWithGivenK (x y : Nat) (kList : List Nat) : RecalcOut :=
  let current := x % y
  if current = 0 then ⟨kList, [0], true⟩
  else recalcGo y current kList

/-- `findEarliestOddKIndex` of the gpt5 file (`-1` becomes `none`). -/
def findEarliestOddKIndex : List Nat → Option Nat
  | [] => none
  | kv :: rest =>
    if kv % 2 = 1 then some 0
    else (findEarliestOddKIndex rest).map (· + 1)

/-- The `for (let tweak = 1; tweak <= maxTweak; tweak++)` loop of
`tryLocalAdjustK`, over the remaining tweak values. -/
def tryLocalAdjustGo (prevR y currentK : Nat) : List Nat → Option (Nat × Nat)
  | [] => none
  | t :: ts =>
    let candidateK := currentK + t
    let candidateR := prevR * candidateK % y
    if candidateR ≠ 0 ∧ candidateR < prevR then some (candidateK, candidateR)
    else tryLocalAdjustGo prevR y currentK ts

/-- `tryLocalAdjustK` of the gpt5 file (`maxTweak = 5`). -/
def tryLocalAdjustK (prevR y currentK : Nat) : Option (Nat × Nat) :=
  tryLocalAdjustGo prevR y currentK [1, 2, 3, 4, 5]

/-- Lines 178-189 of the gpt5 `inverseModFull` loop body: compute
`kn = computeNextK(prevR, y)` and its tentative remainder, and on immediate
failure, stagnation, or the shared-factor/even-modulus condition, let
`tryLocalAdjustK` replace them.  Returns the `(kn, newR)` actually pushed. -/
def gpt5Choose (y prevR : Nat) : Nat × Nat :=
  let kn := computeNextK prevR y
  let tentativeR := prevR * kn % y
  if tentativeR = 0 ∨ prevR ≤ tentativeR ∨ (1 < gcdJs prevR y ∧ y % 2 = 0) then
    match tryLocalAdjustK prevR y kn with
    | some kr => kr
    | none => (kn, tentativeR)
  else (kn, tentativeR)

/-- The mutable loop state of the gpt5 `inverseModFull`:
the `k[]` and `r[]` arrays, the step index `n`, and `backtrackCount`. -/
structure BState where
  k : List Nat
  r : List Nat
  n : Nat
  btc : Nat
deriving DecidableEq, Repr

/-- One iteration of the gpt5 loop either continues with a new state or
breaks out of the loop (`halt`). -/
inductive StepRes where
  | cont : BState → StepRes
  | halt : BState → StepRes
deriving DecidableEq, Repr

/-- Lines 242-251 of the gpt5 loop body: break on a zero remainder, break
on a non-decreasing remainder, otherwise advance `n`. -/
def gpt5StepFinal (st : BState) (prevR newR : Nat) (k2 r2 : List Nat) : StepRes :=
  if newR = 0 then StepRes.halt ⟨k2, r2, st.n, st.btc⟩
  else if prevR ≤ newR then StepRes.halt ⟨k2, r2, st.n, st.btc⟩
  else StepRes.cont ⟨k2, r2, st.n + 1, st.btc⟩

/-- Lines 222-240 of the gpt5 loop body: the generalized
(`gcd(prevR, y) > 1`) backtrack — increment the earliest odd multiplier by
2, keep the (normalized) prefix up to it, recompute the remainders from
scratch, and count the backtrack; inapplicable or out of budget falls
through to the terminal checks. -/
def gpt5StepAfterParity (x y : Nat) (st : BState) (prevR newR : Nat)
    (k2 r2 : List Nat) : StepRes :=
  if newR = 0 ∧ 1 < gcdJs prevR y ∧ st.btc < 5 then
    match findEarliestOddKIndex k2 with
    | some idx =>
      let k3 := k2.set idx (k2.getD idx 0 + 2)
      let kPre := k3.take (idx + 1)
      let rc := recalcRemaindersWithGivenK x y kPre
      StepRes.cont ⟨rc.k, rc.r, rc.r.length, st.btc + 1⟩
    | none => gpt5StepFinal st prevR newR k2 r2
  else gpt5StepFinal st prevR newR k2 r2

/-- One full iteration of the gpt5 `while` loop body (lines 178-251):
choose the next multiplier (with local adjustment), push it and its
remainder, then try the parity-aware backtrack (zero remainder from an even
remainder under an even modulus, within the backtrack budget, with an odd
multiplier available; on `failedAtZero` the truncation of `k` is skipped),
then the generalized backtrack, then the terminal checks. -/
def gpt5Step (x y : Nat) (st : BState) : StepRes :=
  let prevR := st.r.getD (st.n - 1) 0
  let c := gpt5Choose y prevR
  let k2 := st.k ++ [c.1]
  let r2 := st.r ++ [c.2]
  if c.2 = 0 ∧ y % 2 = 0 ∧ prevR % 2 = 0 ∧ st.btc < 5 then
    match findEarliestOddKIndex k2 with
    | some idx =>
      let k3 := k2.set idx (k2.getD idx 0 + 2)
      let kPre := k3.take (idx + 1)
      let rc := recalcRemaindersWithGivenK x y kPre
      if rc.failedAtZero then StepRes.cont ⟨k3, rc.r, rc.r.length, st.btc + 1⟩
      else StepRes.cont ⟨rc.k, rc.r, rc.r.length, st.btc + 1⟩
    | none => gpt5StepAfterParity x y st prevR c.2 k2 r2
  else gpt5StepAfterParity x y st prevR c.2 k2 r2

/-- The `while (r[n-1] > 1 && n < maxIterations)` loop of the gpt5
`inverseModFull` (`maxIterations = 200`), with fuel to make the recursion
structural.  `none` means the fuel ran out; the termination theorem shows
1300 units of fuel always reach a final state. -/
def gpt5LoopGo (x y : Nat) : Nat → BState → Option BState
  | 0, _ => none
  | fuel + 1, st =>
    if 1 < st.r.getD (st.n - 1) 0 ∧ st.n < 200 then
      match gpt5Step x y st with
      | StepRes.halt st2 => some st2
      | StepRes.cont st2 => gpt5LoopGo x y fuel st2
    else some st

/-- Structured result of the gpt5 `inverseModFull`. -/
structure GResult where
  special : Option SpecialCase
  k : List Nat
  r : List Nat
  z : Nat
deriving DecidableEq, Repr

/-- `inverseModFull` of the gpt5 file: special cases, the multiple-of-
modulus exit, the initial multiplier (`k1 = floor(y / xNorm)`, bumped and
normalized so `k1 * xNorm > y`), its zero-remainder exit, the bounded
backtracking loop, and `z = (product of k) % y` exactly when the final
remainder is 1 (on failure the source only logs the extended-Euclid
inverse, `egcdNoteInverse`, and still returns `z = 0`). -/
def inverseModFull (x y : Nat) : GResult :=
  match checkSpecialCases x y with
  | some sc => ⟨some sc, [], [], 0⟩
  | none =>
    let xNorm := x % y
    if xNorm = 0 then ⟨none, [], [], 0⟩
    else
      let k1a := y / xNorm
      let k1b := if k1a * xNorm ≤ y then k1a + 1 else k1a
      let k1 := normalizeKForBounds xNorm y k1b
      let r1 := xNorm * k1 % y
      if r1 = 0 then ⟨none, [k1], [r1], 0⟩
      else
        let st0 : BState := ⟨[k1], [r1], 1, 0⟩
        let stF := match gpt5LoopGo x y 1300 st0 with
          | some s => s
          | none => st0
        let z := if stF.r.getLast? = some 1 then prodOf stF.k % y else 0
        ⟨none, stF.k, stF.r, z⟩

end Gpt5

/-- Loop invariant of the fixed reduction loop: the step index mirrors the
length of the remainder trace, the two traces run in lockstep, remainders
are reduced modulo `y`, and the last remainder is `cX * (product of k) % y`
(with `cX = x % y` the normalized base). -/
def Fixed.LoopInv (y cX n : Nat) (k r : List Nat) : Prop :=
  n = r.length ∧ k.length = r.length ∧ 0 < n ∧ (∀ v ∈ r, v < y) ∧
  r.getLast? = some (cX * prodOf k % y)

/-- Trace invariant of the humanized depth-first search at a node holding
current remainder `r` with accumulated multipliers `ms` and remainder
history `rs`, for seed `r0`: the history is one longer than the multiplier
list, starts at the seed, ends at the current remainder, strictly
decreases, avoids 0, stays below the modulus, and folding the multipliers
into the seed reproduces the current remainder. -/
def Humanized.DfsInv (m r0 : Nat) (ms rs : List Nat) (r : Nat) : Prop :=
  rs.length = ms.length + 1 ∧
  rs.head? = some r0 ∧
  rs.getLast? = some r ∧
  List.Chain' (fun a b => b < a) rs ∧
  (∀ v ∈ rs, v ≠ 0) ∧
  (∀ v ∈ rs, v < m) ∧
  List.foldl (fun a k => a * k % m) r0 ms = r

/-- Termination measure for the gpt5 loop: every iteration either advances
`n` (bounded by `maxIterations = 200`) or spends one of the at most
`maxBacktracks = 5` backtracks, so this quantity strictly decreases. -/
def Gpt5.bmeasure (st : Gpt5.BState) : Nat :=
  (5 - st.btc) * 200 + (200 - st.n)

/-! ## Properties of the shared utilities -/

theorem gcdGo_eq_gcd : ∀ fuel a b, b < fuel → gcdGo fuel a b = Nat.gcd a b := by
  intro fuel
  induction fuel using Nat.strong_induction_on with
  | _ fuel ih =>
    intro a b hb
    match fuel, hb with
    | f + 1, hb =>
      unfold gcdGo
      by_cases h0 : b = 0
      · simp [h0]
      · simp only [h0, if_false]
        have hmod : a % b < b := Nat.mod_lt _ (Nat.pos_of_ne_zero h0)
        rcases Nat.lt_or_ge (a % b) f with hf | hf
        · rw [ih f (Nat.lt_succ_self f) b (a % b) hf]
          rw [Nat.gcd_comm b (a % b), ← Nat.gcd_rec b a, Nat.gcd_comm b a]
        · -- a % b < b ≤ f + 1 and a % b ≥ f forces b = f ... handle via b ≤ f
          have hble : b ≤ f := Nat.lt_succ_iff.mp hb
          have : a % b < f := Nat.lt_of_lt_of_le hmod hble
          exact absurd this (Nat.not_lt_of_ge hf)

theorem gcdJs_eq_gcd (a b : Nat) : gcdJs a b = Nat.gcd a b :=
  gcdGo_eq_gcd (b + 1) a b (Nat.lt_succ_self b)

theorem prodOf_eq_prod (l : List Nat) : prodOf l = l.prod := by
  simp [prodOf, List.prod_eq_foldl]

theorem prodOf_append (l : List Nat) (k : Nat) :
    prodOf (l ++ [k]) = prodOf l * k := by
  simp [prodOf_eq_prod]

/-- Folding `a * k % m` over a list agrees with the product modulo `m`. -/
theorem foldl_mulmod_eq (m : Nat) (l : List Nat) :
    ∀ c, List.foldl (fun a k => a * k % m) c l % m = c * prodOf l % m := by
  induction l with
  | nil => intro c; simp [prodOf]
  | cons k ks ih =>
    intro c
    have h1 : prodOf (k :: ks) = k * prodOf ks := by
      simp [prodOf_eq_prod, List.prod_cons]
    simp only [List.foldl_cons]
    rw [ih (c * k % m), h1]
    conv_rhs => rw [← Nat.mul_assoc]
    rw [Nat.mod_mul_mod]

/-- A nonempty fold of `a * k % m` steps is already reduced modulo `m`. -/
theorem foldl_mulmod_mod (m : Nat) (l : List Nat) (hne : l ≠ []) :
    ∀ c, List.foldl (fun a k => a * k % m) c l % m
      = List.foldl (fun a k => a * k % m) c l := by
  induction l with
  | nil => exact absurd rfl hne
  | cons k ks ih =>
    intro c
    match ks, ih with
    | [], _ => simp
    | k2 :: ks2, ih => simpa using ih (by simp) (c * k % m)


/-- The element at index `length - 1` (via `getD`) is the last element. -/
theorem getD_pred_length (l : List Nat) (w : Nat) (h : l.getLast? = some w) :
    l.getD (l.length - 1) 0 = w := by
  rw [List.getLast?_eq_getElem?] at h
  rw [List.getD_eq_getElem?_getD, h]
  rfl

/-! ## The fixed variant -/

namespace Fixed

/-- The fixed loop only appends to its traces. -/
theorem fixedLoop_extend (y : Nat) :
    ∀ fuel n k r, ∃ t u, fixedLoop y fuel n k r = (k ++ t, r ++ u) := by
  intro fuel
  induction fuel with
  | zero =>
    intro n k r
    rw [fixedLoop]
    split
    · exact ⟨[], [], by simp⟩
    · exact ⟨[], [], by simp⟩
  | succ f ih =>
    intro n k r
    rw [fixedLoop]
    split
    · simp only
      split
      · exact ⟨[fixedNextK y (r.getD (n - 1) 0)], [r.getD (n - 1) 0 * fixedNextK y (r.getD (n - 1) 0) % y], rfl⟩
      · split
        · exact ⟨[fixedNextK y (r.getD (n - 1) 0)], [r.getD (n - 1) 0 * fixedNextK y (r.getD (n - 1) 0) % y], rfl⟩
        · obtain ⟨t, u, ht⟩ := ih (n + 1)
            (k ++ [fixedNextK y (r.getD (n - 1) 0)])
            (r ++ [r.getD (n - 1) 0 * fixedNextK y (r.getD (n - 1) 0) % y])
          exact ⟨fixedNextK y (r.getD (n - 1) 0) :: t,
            (r.getD (n - 1) 0 * fixedNextK y (r.getD (n - 1) 0) % y) :: u,
            by rw [ht]; simp⟩
    · exact ⟨[], [], by simp⟩

/-- The fixed loop preserves its invariant into the returned traces. -/
theorem fixedLoop_inv (y cX : Nat) (hy : 0 < y) :
    ∀ fuel n k r, LoopInv y cX n k r →
      (fixedLoop y fuel n k r).1.length = (fixedLoop y fuel n k r).2.length ∧
      (∀ v ∈ (fixedLoop y fuel n k r).2, v < y) ∧
      (fixedLoop y fuel n k r).2.getLast? =
        some (cX * prodOf (fixedLoop y fuel n k r).1 % y) := by
  intro fuel
  induction fuel with
  | zero =>
    intro n k r hinv
    obtain ⟨h1, h2, h3, h4, h5⟩ := hinv
    rw [fixedLoop]
    split
    · exact ⟨h2, h4, h5⟩
    · exact ⟨h2, h4, h5⟩
  | succ f ih =>
    intro n k r hinv
    obtain ⟨h1, h2, h3, h4, h5⟩ := hinv
    have hprev : r.getD (n - 1) 0 = cX * prodOf k % y := by
      rw [h1]; exact getD_pred_length r _ h5
    have hnew : r.getD (n - 1) 0 * fixedNextK y (r.getD (n - 1) 0) % y
        = cX * prodOf (k ++ [fixedNextK y (r.getD (n - 1) 0)]) % y := by
      rw [hprev, prodOf_append, Nat.mod_mul_mod, Nat.mul_assoc]
    have hinv2 : LoopInv y cX (n + 1) (k ++ [fixedNextK y (r.getD (n - 1) 0)])
        (r ++ [r.getD (n - 1) 0 * fixedNextK y (r.getD (n - 1) 0) % y]) := by
      refine ⟨by simp [h1], by simp [h2], Nat.succ_pos n, ?_, ?_⟩
      · intro v hv
        rcases List.mem_append.mp hv with hv | hv
        · exact h4 v hv
        · simp only [List.mem_singleton] at hv
          subst hv
          exact Nat.mod_lt _ hy
      · rw [List.getLast?_concat, hnew]
    rw [fixedLoop]
    split
    · simp only
      split
      · refine ⟨by simp [h2], ?_, ?_⟩
        · exact hinv2.2.2.2.1
        · exact hinv2.2.2.2.2
      · split
        · refine ⟨by simp [h2], ?_, ?_⟩
          · exact hinv2.2.2.2.1
          · exact hinv2.2.2.2.2
        · exact ih (n + 1) _ _ hinv2
    · exact ⟨h2, h4, h5⟩

/-- The fixed loop adds at most `fuel` elements to each trace. -/
theorem fixedLoop_len (y : Nat) :
    ∀ fuel n k r,
      (fixedLoop y fuel n k r).1.length ≤ k.length + fuel ∧
      (fixedLoop y fuel n k r).2.length ≤ r.length + fuel := by
  intro fuel
  induction fuel with
  | zero =>
    intro n k r
    rw [fixedLoop]
    split
    · simp
    · simp
  | succ f ih =>
    intro n k r
    rw [fixedLoop]
    split
    · simp only
      split
      · constructor <;> simp
      · split
        · constructor <;> simp
        · obtain ⟨ha, hb⟩ := ih (n + 1)
            (k ++ [fixedNextK y (r.getD (n - 1) 0)])
            (r ++ [r.getD (n - 1) 0 * fixedNextK y (r.getD (n - 1) 0) % y])
          constructor
          · refine le_trans ha ?_
            simp; omega
          · refine le_trans hb ?_
            simp; omega
    · constructor <;> simp

end Fixed


namespace Fixed

/-- Characterization of the fixed `inverseModFull`: traces run in lockstep,
remainders are reduced modulo `y`; when the final remainder is 1 the
returned `z` is the multiplier product mod `y`, nonzero, and inverts `x`;
otherwise `z = 0`. -/
theorem inverseModFull_spec (x y : Nat) (hy : 0 < y) :
    (inverseModFull x y).k.length = (inverseModFull x y).r.length ∧
    (∀ v ∈ (inverseModFull x y).r, v < y) ∧
    ((inverseModFull x y).r.getLast? = some 1 →
      (inverseModFull x y).z = prodOf (inverseModFull x y).k % y ∧
      (inverseModFull x y).z * x % y = 1 ∧
      (inverseModFull x y).z ≠ 0) ∧
    ((inverseModFull x y).r.getLast? ≠ some 1 → (inverseModFull x y).z = 0) := by
  cases hsc : checkSpecialCases x y with
  | some sc =>
    have hef : inverseModFull x y = ⟨some sc, [], [], 0⟩ := by
      unfold inverseModFull
      rw [hsc]
    rw [hef]
    simp
  | none =>
    by_cases hcx : x % y = 0
    · have hef : inverseModFull x y = ⟨none, [], [], 0⟩ := by
        unfold inverseModFull
        rw [hsc]
        simp [hcx]
      rw [hef]
      simp
    · have hef : inverseModFull x y =
          ⟨none,
           (fixedLoop y 99 1 [y / (x % y) + 1] [x % y * (y / (x % y) + 1) % y]).1,
           (fixedLoop y 99 1 [y / (x % y) + 1] [x % y * (y / (x % y) + 1) % y]).2,
           if (fixedLoop y 99 1 [y / (x % y) + 1]
                [x % y * (y / (x % y) + 1) % y]).2.getLast? = some 1 then
             prodOf (fixedLoop y 99 1 [y / (x % y) + 1]
               [x % y * (y / (x % y) + 1) % y]).1 % y
           else 0⟩ := by
        unfold inverseModFull
        rw [hsc]
        simp only [hcx, if_false]
      have hinit : LoopInv y (x % y) 1 [y / (x % y) + 1]
          [x % y * (y / (x % y) + 1) % y] := by
        refine ⟨rfl, rfl, Nat.one_pos, ?_, ?_⟩
        · intro v hv
          simp only [List.mem_singleton] at hv
          subst hv
          exact Nat.mod_lt _ hy
        · simp [prodOf]
      obtain ⟨hlen, hlt, hlast⟩ := fixedLoop_inv y (x % y) hy 99 1 _ _ hinit
      rw [hef]
      dsimp only
      refine ⟨hlen, hlt, ?_, ?_⟩
      · intro hone
        have h1 : x % y * prodOf (fixedLoop y 99 1 [y / (x % y) + 1]
            [x % y * (y / (x % y) + 1) % y]).1 % y = 1 := by
          rw [hone] at hlast
          exact (Option.some_inj.mp hlast).symm
        rw [if_pos hone]
        refine ⟨rfl, ?_, ?_⟩
        · calc prodOf (fixedLoop y 99 1 [y / (x % y) + 1]
                [x % y * (y / (x % y) + 1) % y]).1 % y * x % y
              = prodOf (fixedLoop y 99 1 [y / (x % y) + 1]
                [x % y * (y / (x % y) + 1) % y]).1 * x % y := Nat.mod_mul_mod
            _ = x * prodOf (fixedLoop y 99 1 [y / (x % y) + 1]
                [x % y * (y / (x % y) + 1) % y]).1 % y := by rw [Nat.mul_comm]
            _ = x % y * prodOf (fixedLoop y 99 1 [y / (x % y) + 1]
                [x % y * (y / (x % y) + 1) % y]).1 % y := Nat.mod_mul_mod.symm
            _ = 1 := h1
        · intro hz0
          rw [Nat.mul_mod, hz0] at h1
          simp at h1
      · intro hne
        rw [if_neg hne]

end Fixed

namespace Humanized

/-- Extending a search node by one accepted multiplier (nonzero, strictly
decreasing next remainder) preserves the trace invariant. -/
theorem DfsInv.step {m r0 : Nat} {ms rs : List Nat} {r : Nat}
    (hm : 0 < m) (h : DfsInv m r0 ms rs r) (k : Nat)
    (hnz : r * k % m ≠ 0) (hlt : r * k % m < r) :
    DfsInv m r0 (ms ++ [k]) (rs ++ [r * k % m]) (r * k % m) := by
  obtain ⟨h1, h2, h3, h4, h5, h6, h7⟩ := h
  cases rs with
  | nil => simp at h2
  | cons a tl =>
    simp only [List.head?_cons, Option.some_inj] at h2
    subst h2
    refine ⟨?_, rfl, ?_, ?_, ?_, ?_, ?_⟩
    · simp only [List.length_append, List.length_cons, List.length_singleton] at *
      omega
    · exact List.getLast?_concat _
    · rw [List.chain'_append]
      refine ⟨h4, List.chain'_singleton _, ?_⟩
      intro p hp q hq
      simp only [List.head?_cons, Option.mem_def, Option.some_inj] at hq
      rw [h3] at hp
      simp only [Option.mem_def, Option.some_inj] at hp
      subst hp
      subst hq
      exact hlt
    · intro v hv
      rcases List.mem_append.mp hv with hv | hv
      · exact h5 v hv
      · simp only [List.mem_singleton] at hv
        subst hv
        exact hnz
    · intro v hv
      rcases List.mem_append.mp hv with hv | hv
      · exact h6 v hv
      · simp only [List.mem_singleton] at hv
        subst hv
        exact Nat.mod_lt _ hm
    · rw [List.foldl_append, h7]
      rfl

end Humanized

namespace Humanized

/-- The offsets loop returns a successful trace only by handing an extended
node to `child`, so an invariant `child` carries into its successes is
carried by the loop. -/
theorem dfsLoop_some_inv (m r0 : Nat)
    (child : Nat → List Nat → List Nat → Nat → Option (List Nat × List Nat) × Nat)
    (hm : 0 < m)
    (hchild : ∀ r ms rs e res e2, child r ms rs e = (some res, e2) →
      DfsInv m r0 ms rs r → DfsInv m r0 res.1 res.2 1) :
    ∀ pending r ms rs e res e2,
      dfsLoop m child pending r ms rs e = (some res, e2) →
      DfsInv m r0 ms rs r → DfsInv m r0 res.1 res.2 1 := by
  intro pending
  induction pending with
  | nil =>
    intro r ms rs e res e2 hrun
    simp [dfsLoop] at hrun
  | cons o os ih =>
    intro r ms rs e res e2 hrun hinv
    rw [dfsLoop] at hrun
    by_cases hk : ceilDiv m r + o = 0
    · rw [if_pos hk] at hrun
      exact ih r ms rs e res e2 hrun hinv
    · rw [if_neg hk] at hrun
      by_cases hz : r * (ceilDiv m r + o) % m = 0
      · rw [if_pos hz] at hrun
        exact ih r ms rs e res e2 hrun hinv
      · rw [if_neg hz] at hrun
        by_cases hge : r ≤ r * (ceilDiv m r + o) % m
        · rw [if_pos hge] at hrun
          exact ih r ms rs e res e2 hrun hinv
        · rw [if_neg hge] at hrun
          rcases hchildcase : child (r * (ceilDiv m r + o) % m)
              (ms ++ [ceilDiv m r + o]) (rs ++ [r * (ceilDiv m r + o) % m]) e
            with ⟨co, ce⟩
          rw [hchildcase] at hrun
          cases co with
          | some cres =>
            change (some cres, ce) = (some res, e2) at hrun
            injection hrun with hl hr
            injection hl with hl
            subst hl
            exact hchild _ _ _ _ _ _ hchildcase
              (hinv.step hm _ hz (Nat.lt_of_not_le hge))
          | none =>
            change dfsLoop m child os r ms rs ce = (some res, e2) at hrun
            exact ih r ms rs ce res e2 hrun hinv

/-- A successful `dfs` search carries the trace invariant from its starting
node to the accepting node, whose current remainder is 1. -/
theorem dfs_some_inv (m mN : Nat) (offs : List Nat) (r0 : Nat) (hm : 0 < m) :
    ∀ fuel r ms rs e res e2,
      dfs m mN offs fuel r ms rs e = (some res, e2) →
      DfsInv m r0 ms rs r → DfsInv m r0 res.1 res.2 1 := by
  intro fuel
  induction fuel with
  | zero =>
    intro r ms rs e res e2 hrun hinv
    rw [dfs] at hrun
    by_cases he : mN ≤ e
    · rw [if_pos he] at hrun
      simp at hrun
    · rw [if_neg he] at hrun
      by_cases hr : r = 1
      · rw [if_pos hr] at hrun
        change (some (ms, rs), e + 1) = (some res, e2) at hrun
        injection hrun with hl hr2
        injection hl with hl
        subst hl
        subst hr
        exact hinv
      · rw [if_neg hr] at hrun
        simp at hrun
  | succ f ih =>
    intro r ms rs e res e2 hrun hinv
    rw [dfs] at hrun
    by_cases he : mN ≤ e
    · rw [if_pos he] at hrun
      simp at hrun
    · rw [if_neg he] at hrun
      by_cases hr : r = 1
      · rw [if_pos hr] at hrun
        change (some (ms, rs), e + 1) = (some res, e2) at hrun
        injection hrun with hl hr2
        injection hl with hl
        subst hl
        subst hr
        exact hinv
      · rw [if_neg hr] at hrun
        change dfsLoop m (fun nr ms2 rs2 e2 => dfs m mN offs f nr ms2 rs2 e2)
          offs r ms rs (e + 1) = (some res, e2) at hrun
        exact dfsLoop_some_inv m r0 _ hm
          (fun r' ms' rs' e' res' e2' hc hi => ih r' ms' rs' e' res' e2' hc hi)
          offs r ms rs (e + 1) res e2 hrun hinv

end Humanized

namespace Humanized

/-- Every successful run of `findInverseWithBacktracking` starts its
remainder trace at `base % modulus`, decreases strictly, avoids 0, ends at
1, and returns the multiplier-product inverse, which validates; outside the
`base % modulus = 1` shortcut the remainder trace is one longer than the
multiplier list. -/
theorem findInverse_success_spec (base modulus : Nat) (hm : 0 < modulus)
    (hf : (findInverseWithBacktracking base modulus).found = true) :
    (findInverseWithBacktracking base modulus).remainders.head? = some (base % modulus) ∧
    (findInverseWithBacktracking base modulus).remainders.getLast? = some 1 ∧
    List.Chain' (fun a b => b < a) (findInverseWithBacktracking base modulus).remainders ∧
    (∀ v ∈ (findInverseWithBacktracking base modulus).remainders, v ≠ 0) ∧
    (findInverseWithBacktracking base modulus).inverse
      = prodOf (findInverseWithBacktracking base modulus).multipliers % modulus ∧
    (findInverseWithBacktracking base modulus).inverse * base % modulus = 1 ∧
    (base % modulus ≠ 1 →
      (findInverseWithBacktracking base modulus).remainders.length
        = (findInverseWithBacktracking base modulus).multipliers.length + 1) := by
  by_cases hnb0 : base % modulus = 0
  · have hef : findInverseWithBacktracking base modulus = ⟨false, 0, [], [0], 0⟩ := by
      unfold findInverseWithBacktracking
      rw [if_pos hnb0]
    rw [hef] at hf
    simp at hf
  · by_cases hnb1 : base % modulus = 1
    · have hef : findInverseWithBacktracking base modulus = ⟨true, 1, [1], [1], 1⟩ := by
        unfold findInverseWithBacktracking
        rw [if_neg hnb0, if_pos hnb1]
      have hm1 : modulus ≠ 1 := by
        intro h1
        rw [h1] at hnb1
        omega
      rw [hef]
      dsimp only
      refine ⟨by simp [hnb1], rfl, List.chain'_singleton _, ?_, ?_, ?_, ?_⟩
      · intro v hv
        simp only [List.mem_singleton] at hv
        subst hv
        exact Nat.one_ne_zero
      · show 1 = prodOf [1] % modulus
        show 1 = 1 * 1 % modulus
        rw [Nat.one_mul, Nat.one_mod_eq_one.mpr hm1]
      · rw [Nat.one_mul, hnb1]
      · intro hne
        exact absurd hnb1 hne
    · rcases hd : dfs modulus 2000 [0, 1, 2, 3] 64 (base % modulus) [] [base % modulus] 0
        with ⟨o, e⟩
      cases o with
      | none =>
        have hef : findInverseWithBacktracking base modulus
            = ⟨false, 0, [], [base % modulus], e⟩ := by
          unfold findInverseWithBacktracking
          rw [if_neg hnb0, if_neg hnb1, hd]
        rw [hef] at hf
        simp at hf
      | some mr =>
        rcases mr with ⟨ms, rs⟩
        have hef : findInverseWithBacktracking base modulus
            = ⟨true, ms.foldl (fun a k => a * k % modulus) 1, ms, rs, e⟩ := by
          unfold findInverseWithBacktracking
          rw [if_neg hnb0, if_neg hnb1, hd]
        have hinit : DfsInv modulus (base % modulus) [] [base % modulus] (base % modulus) :=
          ⟨rfl, rfl, rfl, List.chain'_singleton _,
            by intro v hv; simp only [List.mem_singleton] at hv; subst hv; exact hnb0,
            by intro v hv; simp only [List.mem_singleton] at hv; subst hv
               exact Nat.mod_lt _ hm,
            rfl⟩
        have hres := dfs_some_inv modulus 2000 [0, 1, 2, 3] (base % modulus) hm
          64 (base % modulus) [] [base % modulus] 0 (ms, rs) e hd hinit
        obtain ⟨g1, g2, g3, g4, g5, g6, g7⟩ := hres
        have h1m : 1 < modulus := by
          refine g6 1 (List.mem_of_mem_getLast? ?_)
          rw [g3]
          rfl
        have hmsne : ms ≠ [] := by
          intro hnil
          subst hnil
          cases rs with
          | nil => simp at g2
          | cons a tl =>
            simp only [List.length_cons, List.length_nil] at g1
            have htl : tl = [] := List.eq_nil_of_length_eq_zero (by omega)
            subst htl
            simp only [List.head?_cons, Option.some_inj] at g2
            simp only [List.getLast?_singleton, Option.some_inj] at g3
            rw [← g2, g3] at hnb1
            exact hnb1 rfl
        have hfold1 : ms.foldl (fun a k => a * k % modulus) 1 = prodOf ms % modulus := by
          have ha := foldl_mulmod_mod modulus ms hmsne 1
          have hb := foldl_mulmod_eq modulus ms 1
          rw [ha] at hb
          rw [hb, Nat.one_mul]
        have hq : base % modulus * prodOf ms % modulus = 1 := by
          have hb := foldl_mulmod_eq modulus ms (base % modulus)
          rw [g7] at hb
          rw [Nat.one_mod_eq_one.mpr (by omega)] at hb
          exact hb.symm
        rw [hef]
        dsimp only
        refine ⟨g2, g3, g4, g5, hfold1, ?_, fun _ => g1⟩
        rw [hfold1]
        calc prodOf ms % modulus * base % modulus
            = prodOf ms * base % modulus := Nat.mod_mul_mod
          _ = base * prodOf ms % modulus := by rw [Nat.mul_comm]
          _ = base % modulus * prodOf ms % modulus := Nat.mod_mul_mod.symm
          _ = 1 := hq

end Humanized

namespace Humanized

/-- Every returned trace of `findInverseWithBacktracking` keeps its
remainders below the modulus, and outside the `base % modulus = 1`
shortcut it is one longer than the multiplier list and starts at the seed. -/
theorem findInverse_trace_spec (base modulus : Nat) (hm : 0 < modulus) :
    (∀ v ∈ (findInverseWithBacktracking base modulus).remainders, v < modulus) ∧
    (base % modulus ≠ 1 →
      (findInverseWithBacktracking base modulus).remainders.length
        = (findInverseWithBacktracking base modulus).multipliers.length + 1 ∧
      (findInverseWithBacktracking base modulus).remainders.head?
        = some (base % modulus)) := by
  by_cases hnb0 : base % modulus = 0
  · have hef : findInverseWithBacktracking base modulus = ⟨false, 0, [], [0], 0⟩ := by
      unfold findInverseWithBacktracking
      rw [if_pos hnb0]
    rw [hef]
    dsimp only
    refine ⟨?_, fun _ => ⟨rfl, by simp [hnb0]⟩⟩
    intro v hv
    simp only [List.mem_singleton] at hv
    subst hv
    exact hm
  · by_cases hnb1 : base % modulus = 1
    · have hef : findInverseWithBacktracking base modulus = ⟨true, 1, [1], [1], 1⟩ := by
        unfold findInverseWithBacktracking
        rw [if_neg hnb0, if_pos hnb1]
      have hm1 : 1 < modulus := by
        rcases Nat.lt_or_ge 1 modulus with h | h
        · exact h
        · have h1 : modulus = 1 := by omega
          rw [h1, Nat.mod_one] at hnb1
          omega
      rw [hef]
      dsimp only
      refine ⟨?_, fun hne => absurd hnb1 hne⟩
      intro v hv
      simp only [List.mem_singleton] at hv
      subst hv
      exact hm1
    · rcases hd : dfs modulus 2000 [0, 1, 2, 3] 64 (base % modulus) [] [base % modulus] 0
        with ⟨o, e⟩
      have hnblt : base % modulus < modulus := Nat.mod_lt _ hm
      cases o with
      | none =>
        have hef : findInverseWithBacktracking base modulus
            = ⟨false, 0, [], [base % modulus], e⟩ := by
          unfold findInverseWithBacktracking
          rw [if_neg hnb0, if_neg hnb1, hd]
        rw [hef]
        dsimp only
        refine ⟨?_, fun _ => ⟨rfl, rfl⟩⟩
        intro v hv
        simp only [List.mem_singleton] at hv
        subst hv
        exact hnblt
      | some mr =>
        rcases mr with ⟨ms, rs⟩
        have hef : findInverseWithBacktracking base modulus
            = ⟨true, ms.foldl (fun a k => a * k % modulus) 1, ms, rs, e⟩ := by
          unfold findInverseWithBacktracking
          rw [if_neg hnb0, if_neg hnb1, hd]
        have hinit : DfsInv modulus (base % modulus) [] [base % modulus] (base % modulus) :=
          ⟨rfl, rfl, rfl, List.chain'_singleton _,
            by intro v hv; simp only [List.mem_singleton] at hv; subst hv; exact hnb0,
            by intro v hv; simp only [List.mem_singleton] at hv; subst hv; exact hnblt,
            rfl⟩
        obtain ⟨g1, g2, g3, g4, g5, g6, g7⟩ :=
          dfs_some_inv modulus 2000 [0, 1, 2, 3] (base % modulus) hm
            64 (base % modulus) [] [base % modulus] 0 (ms, rs) e hd hinit
        rw [hef]
        dsimp only
        exact ⟨g6, fun _ => ⟨g1, g2⟩⟩

/-- The offsets loop preserves the explored-node bound carried by `child`. -/
theorem dfsLoop_explored_le (m mN : Nat)
    (child : Nat → List Nat → List Nat → Nat → Option (List Nat × List Nat) × Nat)
    (hchild : ∀ r ms rs e, e ≤ mN → (child r ms rs e).2 ≤ mN) :
    ∀ pending r ms rs e, e ≤ mN →
      (dfsLoop m child pending r ms rs e).2 ≤ mN := by
  intro pending
  induction pending with
  | nil =>
    intro r ms rs e he
    rw [dfsLoop]
    exact he
  | cons o os ih =>
    intro r ms rs e he
    rw [dfsLoop]
    by_cases hk : ceilDiv m r + o = 0
    · rw [if_pos hk]
      exact ih r ms rs e he
    · rw [if_neg hk]
      by_cases hz : r * (ceilDiv m r + o) % m = 0
      · rw [if_pos hz]
        exact ih r ms rs e he
      · rw [if_neg hz]
        by_cases hge : r ≤ r * (ceilDiv m r + o) % m
        · rw [if_pos hge]
          exact ih r ms rs e he
        · rw [if_neg hge]
          rcases hc : child (r * (ceilDiv m r + o) % m)
              (ms ++ [ceilDiv m r + o]) (rs ++ [r * (ceilDiv m r + o) % m]) e
            with ⟨co, ce⟩
          have hce : ce ≤ mN := by
            have h2 := hchild (r * (ceilDiv m r + o) % m) (ms ++ [ceilDiv m r + o])
              (rs ++ [r * (ceilDiv m r + o) % m]) e he
            rw [hc] at h2
            exact h2
          cases co with
          | some cres => exact hce
          | none => exact ih r ms rs ce hce

/-- `dfs` never pushes the explored-node counter past `maxNodes`. -/
theorem dfs_explored_le (m mN : Nat) (offs : List Nat) :
    ∀ fuel r ms rs e, e ≤ mN → (dfs m mN offs fuel r ms rs e).2 ≤ mN := by
  intro fuel
  induction fuel with
  | zero =>
    intro r ms rs e he
    rw [dfs]
    by_cases hemN : mN ≤ e
    · rw [if_pos hemN]
      exact he
    · rw [if_neg hemN]
      by_cases hr : r = 1
      · rw [if_pos hr]
        omega
      · rw [if_neg hr]
        omega
  | succ f ih =>
    intro r ms rs e he
    rw [dfs]
    by_cases hemN : mN ≤ e
    · rw [if_pos hemN]
      exact he
    · rw [if_neg hemN]
      by_cases hr : r = 1
      · rw [if_pos hr]
        omega
      · rw [if_neg hr]
        exact dfsLoop_explored_le m mN _
          (fun r' ms' rs' e' he' => ih r' ms' rs' e' he')
          offs r ms rs (e + 1) (by omega)

/-- The humanized search explores at most `maxNodes = 2000` nodes. -/
theorem findInverse_explored_le (base modulus : Nat) :
    (findInverseWithBacktracking base modulus).exploredNodes ≤ 2000 := by
  unfold findInverseWithBacktracking
  by_cases hnb0 : base % modulus = 0
  · rw [if_pos hnb0]
    dsimp only
    omega
  · rw [if_neg hnb0]
    by_cases hnb1 : base % modulus = 1
    · rw [if_pos hnb1]
      dsimp only
      omega
    · rw [if_neg hnb1]
      rcases hd : dfs modulus 2000 [0, 1, 2, 3] 64 (base % modulus) [] [base % modulus] 0
        with ⟨o, e⟩
      have he : e ≤ 2000 := by
        have h2 := dfs_explored_le modulus 2000 [0, 1, 2, 3] 64 (base % modulus)
          [] [base % modulus] 0 (by omega)
        rw [hd] at h2
        exact h2
      cases o with
      | some mr => rcases mr with ⟨ms, rs⟩; exact he
      | none => exact he

end Humanized

namespace Gpt5

/-- `y < (y / r + 1) * r` for positive `r`: one more than the quotient
always overshoots. -/
theorem lt_div_succ_mul (y r : Nat) (hr : 0 < r) : y < (y / r + 1) * r := by
  have h1 : y % r < r := Nat.mod_lt _ hr
  have h2 : r * (y / r) + y % r = y := Nat.div_add_mod y r
  calc y = r * (y / r) + y % r := h2.symm
    _ < r * (y / r) + r := by omega
    _ = (y / r + 1) * r := by ring

/-- The gpt5 engine's next-multiplier rule is uniformly
`floor(y / r) + 1`: the bounds normalization never changes it. -/
theorem computeNextK_eq (r y : Nat) (hr : 0 < r) : computeNextK r y = y / r + 1 := by
  unfold computeNextK normalizeKForBounds
  rw [if_neg (Nat.pos_iff_ne_zero.mp hr), if_pos (lt_div_succ_mul y r hr)]

/-- When `findEarliestOddKIndex` returns an index, it is in range, the
multiplier there is odd, and every earlier multiplier is even. -/
theorem findEarliestOddKIndex_some_spec :
    ∀ (l : List Nat) (idx : Nat), findEarliestOddKIndex l = some idx →
      idx < l.length ∧ l.getD idx 0 % 2 = 1 ∧
      ∀ j, j < idx → l.getD j 0 % 2 = 0 := by
  intro l
  induction l with
  | nil => intro idx h; simp [findEarliestOddKIndex] at h
  | cons kv rest ih =>
    intro idx h
    rw [findEarliestOddKIndex] at h
    by_cases hodd : kv % 2 = 1
    · rw [if_pos hodd] at h
      injection h with h
      subst h
      exact ⟨Nat.succ_pos _, hodd, fun j hj => absurd hj (Nat.not_lt_zero j)⟩
    · rw [if_neg hodd] at h
      rcases hrec : findEarliestOddKIndex rest with _ | idx2
      · rw [hrec] at h
        simp at h
      · rw [hrec] at h
        simp at h
        subst h
        obtain ⟨ha, hb, hc⟩ := ih idx2 hrec
        refine ⟨by simp only [List.length_cons]; omega, hb, ?_⟩
        intro j hj
        cases j with
        | zero =>
          simp only [List.getD_cons_zero]
          omega
        | succ j2 =>
          simp only [List.getD_cons_succ]
          exact hc j2 (by omega)

/-- When `findEarliestOddKIndex` returns `none`, no multiplier is odd. -/
theorem findEarliestOddKIndex_none_spec :
    ∀ l : List Nat, findEarliestOddKIndex l = none → ∀ v ∈ l, v % 2 = 0 := by
  intro l
  induction l with
  | nil => intro _ v hv; simp at hv
  | cons kv rest ih =>
    intro h v hv
    rw [findEarliestOddKIndex] at h
    by_cases hodd : kv % 2 = 1
    · rw [if_pos hodd] at h
      simp at h
    · rw [if_neg hodd] at h
      have hrec : findEarliestOddKIndex rest = none := by
        rcases hr2 : findEarliestOddKIndex rest with _ | i
        · rfl
        · rw [hr2] at h
          simp at h
      rcases List.mem_cons.mp hv with hveq | hvmem
      · subst hveq
        omega
      · exact ih hrec v hvmem

/-- The recalculation loop returns as many multipliers as it was given. -/
theorem recalcGo_k_length (y : Nat) :
    ∀ prev l, (recalcGo y prev l).k.length = l.length := by
  intro prev l
  induction l generalizing prev with
  | nil => rw [recalcGo]
  | cons kv rest ih =>
    rw [recalcGo]
    by_cases hz : prev * normalizeKForBounds prev y kv % y = 0
    · rw [if_pos hz]
      simp
    · rw [if_neg hz]
      simp [ih]

/-- `recalcRemaindersWithGivenK` returns as many multipliers as given. -/
theorem recalc_k_length (x y : Nat) (l : List Nat) :
    (recalcRemaindersWithGivenK x y l).k.length = l.length := by
  unfold recalcRemaindersWithGivenK
  by_cases hc : x % y = 0
  · rw [if_pos hc]
  · rw [if_neg hc]
    exact recalcGo_k_length y (x % y) l

end Gpt5

namespace Gpt5

/-- The terminal checks either halt or advance `n` keeping `btc`. -/
theorem gpt5StepFinal_cases (st : BState) (prevR newR : Nat) (k2 r2 : List Nat) :
    ∀ st2, gpt5StepFinal st prevR newR k2 r2 = StepRes.cont st2 →
      st2.n = st.n + 1 ∧ st2.btc = st.btc := by
  intro st2 h
  unfold gpt5StepFinal at h
  by_cases h0 : newR = 0
  · rw [if_pos h0] at h
    simp at h
  · rw [if_neg h0] at h
    by_cases hge : prevR ≤ newR
    · rw [if_pos hge] at h
      simp at h
    · rw [if_neg hge] at h
      injection h with h
      subst h
      exact ⟨rfl, rfl⟩

/-- After the parity branch, a continuing step either advances `n` or
spends one backtrack within the budget. -/
theorem gpt5StepAfterParity_cases (x y : Nat) (st : BState) (prevR newR : Nat)
    (k2 r2 : List Nat) :
    ∀ st2, gpt5StepAfterParity x y st prevR newR k2 r2 = StepRes.cont st2 →
      (st2.n = st.n + 1 ∧ st2.btc = st.btc) ∨
      (st2.btc = st.btc + 1 ∧ st.btc < 5) := by
  intro st2 h
  unfold gpt5StepAfterParity at h
  by_cases hc : newR = 0 ∧ 1 < gcdJs prevR y ∧ st.btc < 5
  · rw [if_pos hc] at h
    rcases hidx : findEarliestOddKIndex k2 with _ | idx
    · rw [hidx] at h
      exact Or.inl (gpt5StepFinal_cases st prevR newR k2 r2 st2 h)
    · rw [hidx] at h
      injection h with h
      subst h
      exact Or.inr ⟨rfl, hc.2.2⟩
  · rw [if_neg hc] at h
    exact Or.inl (gpt5StepFinal_cases st prevR newR k2 r2 st2 h)

/-- A continuing gpt5 iteration either advances `n` keeping `btc`, or
increments `btc` while it is still below `maxBacktracks = 5`. -/
theorem gpt5Step_cases (x y : Nat) (st : BState) :
    ∀ st2, gpt5Step x y st = StepRes.cont st2 →
      (st2.n = st.n + 1 ∧ st2.btc = st.btc) ∨
      (st2.btc = st.btc + 1 ∧ st.btc < 5) := by
  intro st2 h
  unfold gpt5Step at h
  by_cases hc : (gpt5Choose y (st.r.getD (st.n - 1) 0)).2 = 0 ∧ y % 2 = 0 ∧
      st.r.getD (st.n - 1) 0 % 2 = 0 ∧ st.btc < 5
  · rw [if_pos hc] at h
    rcases hidx : findEarliestOddKIndex (st.k ++ [(gpt5Choose y (st.r.getD (st.n - 1) 0)).1])
      with _ | idx
    · rw [hidx] at h
      exact gpt5StepAfterParity_cases x y st _ _ _ _ st2 h
    · rw [hidx] at h
      dsimp only at h
      by_cases hfz : (recalcRemaindersWithGivenK x y
          (List.take (idx + 1)
            ((st.k ++ [(gpt5Choose y (st.r.getD (st.n - 1) 0)).1]).set idx
              ((st.k ++ [(gpt5Choose y (st.r.getD (st.n - 1) 0)).1]).getD idx 0 + 2)))).failedAtZero
          = true
      · rw [if_pos hfz] at h
        injection h with h
        subst h
        exact Or.inr ⟨rfl, hc.2.2.2⟩
      · rw [if_neg hfz] at h
        injection h with h
        subst h
        exact Or.inr ⟨rfl, hc.2.2.2⟩
  · rw [if_neg hc] at h
    exact gpt5StepAfterParity_cases x y st _ _ _ _ st2 h

/-- Inside the loop (`n < 200`), every continuing step strictly decreases
the termination measure. -/
theorem gpt5Step_measure (x y : Nat) (st : BState) (hn : st.n < 200) :
    ∀ st2, gpt5Step x y st = StepRes.cont st2 → bmeasure st2 < bmeasure st := by
  intro st2 h
  rcases gpt5Step_cases x y st st2 h with ⟨ha, hb⟩ | ⟨ha, hb⟩
  · unfold bmeasure
    rw [ha, hb]
    omega
  · unfold bmeasure
    rw [ha]
    have h2 : (5 - (st.btc + 1)) * 200 + 200 ≤ (5 - st.btc) * 200 := by omega
    omega

/-- The termination measure never exceeds `6 * 200 = 1200`. -/
theorem bmeasure_le (st : BState) : bmeasure st ≤ 1200 := by
  unfold bmeasure
  omega

/-- With more fuel than the measure, the gpt5 loop reaches a final state. -/
theorem gpt5LoopGo_some (x y : Nat) :
    ∀ fuel st, bmeasure st < fuel → (gpt5LoopGo x y fuel st).isSome = true := by
  intro fuel
  induction fuel with
  | zero => intro st h; omega
  | succ f ih =>
    intro st h
    rw [gpt5LoopGo]
    by_cases hcond : 1 < st.r.getD (st.n - 1) 0 ∧ st.n < 200
    · rw [if_pos hcond]
      rcases hstep : gpt5Step x y st with st2 | st2
      · have hm := gpt5Step_measure x y st hcond.2 st2 hstep
        exact ih st2 (by omega)
      · simp
    · rw [if_neg hcond]
      simp

/-- 1300 units of fuel always suffice for the gpt5 loop: the iteration cap
and the backtrack cap bound the iterations by `6 * 200 < 1300`. -/
theorem gpt5LoopGo_1300 (x y : Nat) (st : BState) :
    (gpt5LoopGo x y 1300 st).isSome = true :=
  gpt5LoopGo_some x y 1300 st (by have := bmeasure_le st; omega)

end Gpt5

/-! ## Claim theorems -/

/-- C1: whenever the computation reports success (the final remainder is 1
and an inverse is returned) on positive inputs, the returned inverse is the
product of the chosen multipliers reduced modulo the modulus and satisfies
`(inverse * base) % modulus = 1` — for both the humanized search and the
fixed variant. -/
theorem c1_success_validity (base modulus : Nat) (_hb : 0 < base) (hm : 0 < modulus) :
    ((Humanized.findInverseWithBacktracking base modulus).found = true →
      (Humanized.findInverseWithBacktracking base modulus).remainders.getLast? = some 1 ∧
      (Humanized.findInverseWithBacktracking base modulus).inverse
        = prodOf (Humanized.findInverseWithBacktracking base modulus).multipliers % modulus ∧
      (Humanized.findInverseWithBacktracking base modulus).inverse * base % modulus = 1) ∧
    ((Fixed.inverseModFull base modulus).r.getLast? = some 1 →
      (Fixed.inverseModFull base modulus).z
        = prodOf (Fixed.inverseModFull base modulus).k % modulus ∧
      (Fixed.inverseModFull base modulus).z * base % modulus = 1) := by
  constructor
  · intro hf
    obtain ⟨_, h2, _, _, h5, h6, _⟩ :=
      Humanized.findInverse_success_spec base modulus hm hf
    exact ⟨h2, h5, h6⟩
  · intro hone
    obtain ⟨_, _, hsucc, _⟩ := Fixed.inverseModFull_spec base modulus hm
    obtain ⟨ha, hv, _⟩ := hsucc hone
    exact ⟨ha, hv⟩

/-- Witness for C1 at `base = 3`, `modulus = 7` (both searches succeed and
`5 * 3 % 7 = 1`). -/
theorem c1_success_validity_witness :
    (Humanized.findInverseWithBacktracking 3 7).inverse * 3 % 7 = 1 ∧
    (Fixed.inverseModFull 3 7).z * 3 % 7 = 1 :=
  ⟨((c1_success_validity 3 7 (by decide) (by decide)).1 (by decide)).2.2,
   ((c1_success_validity 3 7 (by decide) (by decide)).2 (by decide)).2⟩

/-- C2 fails on the code: no guaranteed mode exists.  The only entry point
containing Extended-GCD fallback machinery (the gpt5 `inverseModFull`)
returns the failure value `z = 0` on the coprime pair `(5, 12)` with
modulus `12 > 1`, instead of a valid inverse. -/
theorem c2_no_guaranteed_mode_counterexample :
    Nat.gcd 5 12 = 1 ∧ (1 : Nat) < 12 ∧
    (Gpt5.inverseModFull 5 12).z = 0 ∧
    ¬(Gpt5.inverseModFull 5 12).z * 5 % 12 = 1 := by decide

/-- C2 (amended): no guaranteed mode is exposed.  The humanized entry point
is heuristic-only (every success carries the `heuristic` method tag and
there is no fallback method), and the gpt5 variant computes the
Extended-GCD inverse only for its diagnostic note while still returning
failure: on the coprime pair `(5, 12)` it returns `z = 0` even though the
note inverse 5 exists and `5 * 5 % 12 = 1`. -/
theorem c2_amended_no_fallback_returned :
    (∀ base modulus : Nat,
      (Humanized.computeModularInverse base modulus).success = true →
      (Humanized.computeModularInverse base modulus).method
        = Humanized.MethodTag.heuristic) ∧
    (Gpt5.inverseModFull 5 12).z = 0 ∧
    Gpt5.egcdNoteInverse 5 12 = some 5 ∧
    5 * 5 % 12 = 1 := by
  refine ⟨?_, by decide, by decide, by decide⟩
  intro base modulus hs
  unfold Humanized.computeModularInverse at hs ⊢
  by_cases hm0 : modulus = 0
  · rw [if_pos hm0] at hs
    simp at hs
  · rw [if_neg hm0] at hs ⊢
    by_cases hg : Humanized.computeGreatestCommonDivisor base modulus ≠ 1
    · rw [if_pos hg] at hs
      simp at hs
    · rw [if_neg hg] at hs ⊢
      by_cases hf : (Humanized.findInverseWithBacktracking base modulus).found = true
      · rw [if_pos hf]
      · rw [if_neg hf] at hs
        simp at hs

/-- Witness for C2 (amended) at `(3, 7)`: the successful humanized call is
tagged `heuristic`. -/
theorem c2_amended_no_fallback_returned_witness :
    (Humanized.computeModularInverse 3 7).method = Humanized.MethodTag.heuristic :=
  c2_amended_no_fallback_returned.1 3 7 (by decide)

/-- C3: on positive inputs sharing a factor (`gcd > 1`), all three entry
points short-circuit to a not-coprime failure reporting that gcd, with no
multiplier or remainder steps produced. -/
theorem c3_not_coprime_gate (x y : Nat) (hx : 0 < x) (hy : 0 < y)
    (hg : 1 < Nat.gcd x y) :
    Fixed.inverseModFull x y
      = ⟨some (SpecialCase.notCoprime (Nat.gcd x y)), [], [], 0⟩ ∧
    Humanized.computeModularInverse x y
      = ⟨false, none, Humanized.MethodTag.noMethod, none,
         Humanized.FailReason.notCoprime (Nat.gcd x y)⟩ ∧
    Gpt5.inverseModFull x y
      = ⟨some (SpecialCase.notCoprime (Nat.gcd x y)), [], [], 0⟩ := by
  have hgj : gcdJs x y = Nat.gcd x y := gcdJs_eq_gcd x y
  have hne : gcdJs x y ≠ 1 := by omega
  have hno : ¬(x = 0 ∨ y = 0) := by omega
  refine ⟨?_, ?_, ?_⟩
  · unfold Fixed.inverseModFull Fixed.checkSpecialCases
    rw [if_neg hno, if_pos hne, hgj]
  · have hgc : Humanized.computeGreatestCommonDivisor x y = Nat.gcd x y :=
      gcdJs_eq_gcd x y
    unfold Humanized.computeModularInverse
    rw [if_neg (by omega : ¬y = 0), hgc, if_pos (by omega : ¬Nat.gcd x y = 1)]
  · unfold Gpt5.inverseModFull Gpt5.checkSpecialCases
    rw [if_neg hno, if_pos hne, hgj]

/-- Witness for C3 at `(4, 6)` with `gcd = 2`. -/
theorem c3_not_coprime_gate_witness :
    Fixed.inverseModFull 4 6 = ⟨some (SpecialCase.notCoprime 2), [], [], 0⟩ ∧
    Humanized.computeModularInverse 4 6
      = ⟨false, none, Humanized.MethodTag.noMethod, none,
         Humanized.FailReason.notCoprime 2⟩ ∧
    Gpt5.inverseModFull 4 6 = ⟨some (SpecialCase.notCoprime 2), [], [], 0⟩ := by
  have h := c3_not_coprime_gate 4 6 (by decide) (by decide) (by decide)
  exact h

/-- C4: on the coprime pair `base = 5`, `modulus = 12`, the fixed baseline
variant (no backtracking) drives its remainder sequence to 0 and returns
the failure value `z = 0`, while the search with backtracking enabled
returns success with inverse 5. -/
theorem c4_backtracking_recovers_5_mod_12 :
    Nat.gcd 5 12 = 1 ∧
    (Fixed.inverseModFull 5 12).r.getLast? = some 0 ∧
    (Fixed.inverseModFull 5 12).z = 0 ∧
    (Humanized.findInverseWithBacktracking 5 12).found = true ∧
    (Humanized.findInverseWithBacktracking 5 12).inverse = 5 ∧
    (Humanized.findInverseWithBacktracking 5 12).inverse * 5 % 12 = 1 := by
  decide

/-- C5 fails on the code: running the fixed variant on `(5, 12)`, the
mid-sequence multiplier for current remainder 3 is `4 = 12 / 3`, taken via
the divides-evenly branch, not `floor(12/3) + 1 = 5`. -/
theorem c5_uniform_rule_counterexample :
    (Fixed.inverseModFull 5 12).k = [3, 4] ∧
    (Fixed.inverseModFull 5 12).r.head? = some 3 ∧
    12 % 3 = 0 ∧
    Fixed.fixedNextK 12 3 = 12 / 3 ∧
    ¬Fixed.fixedNextK 12 3 = 12 / 3 + 1 := by decide

/-- C5 (amended): the uniform corrected rule `k = floor(modulus/r) + 1`
holds for the gpt5 engine's `computeNextK` at every step and for the fixed
variant's initial multiplier; the fixed variant's mid-sequence rule instead
takes `k = modulus / r` whenever `r` divides the modulus. -/
theorem c5_amended_multiplier_rules (x y r : Nat) (hr : 0 < r)
    (hsc : Fixed.checkSpecialCases x y = none) (hcx : ¬x % y = 0)
    (hdvd : y % r = 0) :
    Gpt5.computeNextK r y = y / r + 1 ∧
    (Fixed.inverseModFull x y).k.head? = some (y / (x % y) + 1) ∧
    Fixed.fixedNextK y r = y / r := by
  refine ⟨Gpt5.computeNextK_eq r y hr, ?_, by unfold Fixed.fixedNextK; rw [if_pos hdvd]⟩
  have hef : Fixed.inverseModFull x y =
      ⟨none,
       (Fixed.fixedLoop y 99 1 [y / (x % y) + 1] [x % y * (y / (x % y) + 1) % y]).1,
       (Fixed.fixedLoop y 99 1 [y / (x % y) + 1] [x % y * (y / (x % y) + 1) % y]).2,
       if (Fixed.fixedLoop y 99 1 [y / (x % y) + 1]
            [x % y * (y / (x % y) + 1) % y]).2.getLast? = some 1 then
         prodOf (Fixed.fixedLoop y 99 1 [y / (x % y) + 1]
           [x % y * (y / (x % y) + 1) % y]).1 % y
       else 0⟩ := by
    unfold Fixed.inverseModFull
    rw [hsc]
    simp only [hcx, if_false]
  obtain ⟨t, u, ht⟩ := Fixed.fixedLoop_extend y 99 1 [y / (x % y) + 1]
    [x % y * (y / (x % y) + 1) % y]
  rw [hef]
  dsimp only
  rw [ht]
  rfl

/-- Witness for C5 (amended) at `x = 5`, `y = 12`, `r = 3`. -/
theorem c5_amended_multiplier_rules_witness :
    Gpt5.computeNextK 3 12 = 5 ∧
    (Fixed.inverseModFull 5 12).k.head? = some 3 ∧
    Fixed.fixedNextK 12 3 = 4 := by
  have h := c5_amended_multiplier_rules 5 12 3 (by decide) (by decide)
    (by decide) (by decide)
  exact h

/-- C6 fails on the code: the humanized `base % modulus = 1` shortcut
returns one multiplier and one remainder (equal lengths), and the fixed
variant's remainder trace always has the same length as its multiplier
trace — its first remainder is produced by the first multiplier, not a
seed (`r[0] = 2 ≠ 3 = base % modulus` at `(3, 7)`). -/
theorem c6_parallelism_counterexample :
    ¬(Humanized.findInverseWithBacktracking 1 10).remainders.length
      = (Humanized.findInverseWithBacktracking 1 10).multipliers.length + 1 ∧
    ¬(Fixed.inverseModFull 3 7).r.length = (Fixed.inverseModFull 3 7).k.length + 1 ∧
    ¬(Fixed.inverseModFull 3 7).r.head? = some (3 % 7) := by decide

/-- C6 (amended): every humanized trace keeps its remainders in
`[0, modulus)`, and outside the `base % modulus = 1` shortcut it is exactly
one longer than the multiplier list with the seed `base % modulus` first;
the fixed variant's traces have equal lengths, with remainders in
`[0, modulus)`. -/
theorem c6_amended_trace_shape (base modulus : Nat) (hm : 0 < modulus) :
    (∀ v ∈ (Humanized.findInverseWithBacktracking base modulus).remainders,
      v < modulus) ∧
    (¬base % modulus = 1 →
      (Humanized.findInverseWithBacktracking base modulus).remainders.length
        = (Humanized.findInverseWithBacktracking base modulus).multipliers.length + 1 ∧
      (Humanized.findInverseWithBacktracking base modulus).remainders.head?
        = some (base % modulus)) ∧
    (Fixed.inverseModFull base modulus).r.length
      = (Fixed.inverseModFull base modulus).k.length ∧
    (∀ v ∈ (Fixed.inverseModFull base modulus).r, v < modulus) := by
  obtain ⟨ha, hb⟩ := Humanized.findInverse_trace_spec base modulus hm
  obtain ⟨hc, hd, _, _⟩ := Fixed.inverseModFull_spec base modulus hm
  exact ⟨ha, hb, hc.symm, hd⟩

/-- Witness for C6 (amended) at `(5, 12)`. -/
theorem c6_amended_trace_shape_witness :
    (Humanized.findInverseWithBacktracking 5 12).remainders.length
      = (Humanized.findInverseWithBacktracking 5 12).multipliers.length + 1 ∧
    (Humanized.findInverseWithBacktracking 5 12).remainders.head? = some 5 := by
  have h := (c6_amended_trace_shape 5 12 (by decide)).2.1 (by decide)
  exact h

namespace Fixed

/-- The fixed variant's traces never exceed the iteration cap of 100. -/
theorem inverseModFull_len_le (x y : Nat) :
    (inverseModFull x y).k.length ≤ 100 ∧ (inverseModFull x y).r.length ≤ 100 := by
  cases hsc : checkSpecialCases x y with
  | some sc =>
    have hef : inverseModFull x y = ⟨some sc, [], [], 0⟩ := by
      unfold inverseModFull
      rw [hsc]
    rw [hef]
    simp
  | none =>
    by_cases hcx : x % y = 0
    · have hef : inverseModFull x y = ⟨none, [], [], 0⟩ := by
        unfold inverseModFull
        rw [hsc]
        simp [hcx]
      rw [hef]
      simp
    · have hef : inverseModFull x y =
          ⟨none,
           (fixedLoop y 99 1 [y / (x % y) + 1] [x % y * (y / (x % y) + 1) % y]).1,
           (fixedLoop y 99 1 [y / (x % y) + 1] [x % y * (y / (x % y) + 1) % y]).2,
           if (fixedLoop y 99 1 [y / (x % y) + 1]
                [x % y * (y / (x % y) + 1) % y]).2.getLast? = some 1 then
             prodOf (fixedLoop y 99 1 [y / (x % y) + 1]
               [x % y * (y / (x % y) + 1) % y]).1 % y
           else 0⟩ := by
        unfold inverseModFull
        rw [hsc]
        simp only [hcx, if_false]
      obtain ⟨ha, hb⟩ := fixedLoop_len y 99 1 [y / (x % y) + 1]
        [x % y * (y / (x % y) + 1) % y]
      rw [hef]
      dsimp only
      simp only [List.length_singleton] at ha hb
      omega

end Fixed

/-- C7: when a zero remainder is produced from an even remainder under an
even modulus within the backtrack budget, the gpt5 controller locates the
earliest odd multiplier (all earlier ones are even), increments it by 2
(staying odd), recomputes the remainders from the truncated prefix
(discarding the suffix from that index on, `k` keeping its suffix only in
the `failedAtZero` sub-case), and counts the backtrack; and whenever no
odd multiplier exists at a zero-remainder dead end, the strategy is not
applied: the loop body halts with the backtrack counter unchanged. -/
theorem c7_parity_backtrack_step (x y : Nat) (st : Gpt5.BState) (idx : Nat)
    (hz : (Gpt5.gpt5Choose y (st.r.getD (st.n - 1) 0)).2 = 0)
    (hye : y % 2 = 0)
    (hpe : st.r.getD (st.n - 1) 0 % 2 = 0)
    (hb : st.btc < 5)
    (hidx : Gpt5.findEarliestOddKIndex
      (st.k ++ [(Gpt5.gpt5Choose y (st.r.getD (st.n - 1) 0)).1]) = some idx) :
    ((st.k ++ [(Gpt5.gpt5Choose y (st.r.getD (st.n - 1) 0)).1]).getD idx 0 % 2 = 1 ∧
      ∀ j, j < idx →
        (st.k ++ [(Gpt5.gpt5Choose y (st.r.getD (st.n - 1) 0)).1]).getD j 0 % 2 = 0) ∧
    (let k2 := st.k ++ [(Gpt5.gpt5Choose y (st.r.getD (st.n - 1) 0)).1]
     let k3 := k2.set idx (k2.getD idx 0 + 2)
     let rc := Gpt5.recalcRemaindersWithGivenK x y (k3.take (idx + 1))
     k3.getD idx 0 % 2 = 1 ∧
     Gpt5.gpt5Step x y st = Gpt5.StepRes.cont
       ⟨if rc.failedAtZero then k3 else rc.k, rc.r, rc.r.length, st.btc + 1⟩ ∧
     (rc.failedAtZero = false → rc.k.length = idx + 1)) ∧
    (∀ (st2 : Gpt5.BState) (pR : Nat) (k4 r4 : List Nat),
      Gpt5.findEarliestOddKIndex k4 = none →
      Gpt5.gpt5StepAfterParity x y st2 pR 0 k4 r4
        = Gpt5.StepRes.halt ⟨k4, r4, st2.n, st2.btc⟩) := by
  obtain ⟨hlt, hodd, hearlier⟩ := Gpt5.findEarliestOddKIndex_some_spec _ idx hidx
  refine ⟨⟨hodd, hearlier⟩, ?_, ?_⟩
  · dsimp only
    refine ⟨?_, ?_, ?_⟩
    · rw [List.getD_eq_getElem?_getD, List.getElem?_set_self (by simpa using hlt)]
      simp only [Option.getD_some]
      omega
    · unfold Gpt5.gpt5Step
      rw [if_pos ⟨hz, hye, hpe, hb⟩, hidx]
      dsimp only
      by_cases hfz : (Gpt5.recalcRemaindersWithGivenK x y
          (List.take (idx + 1)
            ((st.k ++ [(Gpt5.gpt5Choose y (st.r.getD (st.n - 1) 0)).1]).set idx
              ((st.k ++ [(Gpt5.gpt5Choose y
                (st.r.getD (st.n - 1) 0)).1]).getD idx 0 + 2)))).failedAtZero = true
      · rw [if_pos hfz, if_pos hfz]
      · rw [if_neg hfz, if_neg hfz]
    · intro _
      rw [Gpt5.recalc_k_length, List.length_take, List.length_set]
      simp only [List.length_append, List.length_singleton] at hlt ⊢
      omega
  · intro st2 pR k4 r4 hnone
    unfold Gpt5.gpt5StepAfterParity
    by_cases hc : (0 : Nat) = 0 ∧ 1 < gcdJs pR y ∧ st2.btc < 5
    · rw [if_pos hc, hnone]
      unfold Gpt5.gpt5StepFinal
      rw [if_pos rfl]
    · rw [if_neg hc]
      unfold Gpt5.gpt5StepFinal
      rw [if_pos rfl]

/-- Witness for C7: the artificial in-loop state `k = [3]`, `r = [24]`,
`n = 1`, `btc = 0` under modulus 12 (the chosen multiplier for remainder 24
is 1 with next remainder 0) — the earliest odd multiplier 3 becomes 5 and
the remainders are recomputed from the prefix `[5]` of seed `7 % 12`. -/
theorem c7_parity_backtrack_step_witness :
    Gpt5.gpt5Step 7 12 ⟨[3], [24], 1, 0⟩
      = Gpt5.StepRes.cont ⟨[5], [11], 1, 1⟩ := by
  have h := (c7_parity_backtrack_step 7 12 ⟨[3], [24], 1, 0⟩ 0
    (by decide) (by decide) (by decide) (by decide) (by decide)).2.1.2.1
  rw [h]
  decide

/-- C8: for every pair of positive inputs, every variant's computation is
bounded: the fixed variant's traces stay within the iteration cap of 100,
the humanized search explores at most `maxNodes = 2000` nodes, and the gpt5
loop reaches a final state from any loop state within 1300 iterations
(its iteration cap 200 and backtrack cap 5 bound the measure by 1200), so
no input causes non-termination. -/
theorem c8_termination_bounds (x y : Nat) (_hx : 0 < x) (_hy : 0 < y) :
    (Fixed.inverseModFull x y).k.length ≤ 100 ∧
    (Fixed.inverseModFull x y).r.length ≤ 100 ∧
    (Humanized.findInverseWithBacktracking x y).exploredNodes ≤ 2000 ∧
    (∀ st : Gpt5.BState, (Gpt5.gpt5LoopGo x y 1300 st).isSome = true) :=
  ⟨(Fixed.inverseModFull_len_le x y).1,
   (Fixed.inverseModFull_len_le x y).2,
   Humanized.findInverse_explored_le x y,
   fun st => Gpt5.gpt5LoopGo_1300 x y st⟩

/-- Witness for C8 at `(3, 7)`, with the gpt5 loop run from its actual
initial state for that input. -/
theorem c8_termination_bounds_witness :
    (Fixed.inverseModFull 3 7).r.length ≤ 100 ∧
    (Gpt5.gpt5LoopGo 3 7 1300 ⟨[3], [2], 1, 0⟩).isSome = true :=
  ⟨(c8_termination_bounds 3 7 (by decide) (by decide)).2.1,
   (c8_termination_bounds 3 7 (by decide) (by decide)).2.2.2 ⟨[3], [2], 1, 0⟩⟩

/-- C9: every successful humanized search result has a remainder sequence
that starts at `base % modulus`, strictly decreases, contains no zero, and
ends at 1 — including results found after backtracking over multiplier
offsets. -/
theorem c9_dfs_success_trace (base modulus : Nat) (hm : 0 < modulus)
    (hf : (Humanized.findInverseWithBacktracking base modulus).found = true) :
    (Humanized.findInverseWithBacktracking base modulus).remainders.head?
      = some (base % modulus) ∧
    List.Chain' (fun a b => b < a)
      (Humanized.findInverseWithBacktracking base modulus).remainders ∧
    (∀ v ∈ (Humanized.findInverseWithBacktracking base modulus).remainders, ¬v = 0) ∧
    (Humanized.findInverseWithBacktracking base modulus).remainders.getLast?
      = some 1 := by
  obtain ⟨h1, h2, h3, h4, _, _, _⟩ :=
    Humanized.findInverse_success_spec base modulus hm hf
  exact ⟨h1, h3, h4, h2⟩

/-- Witness for C9 at `(5, 12)`, a success that needs the offset search. -/
theorem c9_dfs_success_trace_witness :
    (Humanized.findInverseWithBacktracking 5 12).remainders.head? = some 5 ∧
    (Humanized.findInverseWithBacktracking 5 12).remainders.getLast? = some 1 := by
  have h := c9_dfs_success_trace 5 12 (by decide) (by decide)
  exact ⟨by rw [h.1], h.2.2.2⟩

/-- C10: in the fixed variant with modulus above 1, the returned `z` is 0
exactly when the computation failed (no trace, or a trace whose final
remainder is not 1 — covering invalid input, non-coprime input, a base
that is a multiple of the modulus, and exhausted searches), and on success
(final remainder 1) `z` is nonzero with `(z * base) % modulus = 1`, so
`z = 0` is a reliable failure sentinel. -/
theorem c10_zero_sentinel (x y : Nat) (hy : 1 < y) :
    ((Fixed.inverseModFull x y).z = 0 ↔
      ¬(Fixed.inverseModFull x y).r.getLast? = some 1) ∧
    ((Fixed.inverseModFull x y).r.getLast? = some 1 →
      ¬(Fixed.inverseModFull x y).z = 0 ∧
      (Fixed.inverseModFull x y).z * x % y = 1) := by
  obtain ⟨_, _, hsucc, hfail⟩ := Fixed.inverseModFull_spec x y (by omega)
  refine ⟨⟨?_, ?_⟩, ?_⟩
  · intro hz0 hone
    obtain ⟨_, _, hnz⟩ := hsucc hone
    exact hnz hz0
  · intro hnot
    exact hfail hnot
  · intro hone
    obtain ⟨_, hv, hnz⟩ := hsucc hone
    exact ⟨hnz, hv⟩

/-- Witness for C10 at `(3, 7)`: success, `z = 5 ≠ 0`, valid. -/
theorem c10_zero_sentinel_witness :
    ¬(Fixed.inverseModFull 3 7).z = 0 ∧ (Fixed.inverseModFull 3 7).z * 3 % 7 = 1 :=
  (c10_zero_sentinel 3 7 (by decide)).2 (by decide)
